import Mathlib

/-!
Verification of the error-position reconciliation core, the upstream failure
classifier, and the text sanitizer of the ai-text-analysis repository.

Python strings are modelled as `List Char` (sequences of Unicode scalar
values); a Python slice `s[i : i + n]` becomes `(s.drop i).take n`, which
agrees with Python slicing for all natural `i` and `n` (both silently clamp
at the end of the string).
-/

namespace TextAnalysis

/-- Model of the Python slice comparison
`hay[i : i + len(needle)] == needle`. -/
def matchesAt (hay needle : List Char) (i : Nat) : Bool :=
  decide ((hay.drop i).take needle.length = needle)

/-- Model of Python `hay.find(needle, start)` (and of `hay.index(needle)`
when `start = 0` and the result is `some`): the lowest index `i ≥ start`
with `hay[i : i + len(needle)] == needle`, or `none` when there is none.
Indices are searched up to and including `hay.length`, matching Python,
where the empty needle is found at every index `≤ len(hay)` and nowhere
beyond. -/
def findFrom (hay needle : List Char) (start : Nat) : Option Nat :=
  (List.range (hay.length + 1)).find? fun i => decide (start ≤ i) && matchesAt hay needle i

/-- Predicate: `needle` occurs somewhere in `hay` as an exact substring (the
declarative counterpart of `findFrom hay needle 0 ≠ none`). -/
def occursIn (needle hay : List Char) : Prop :=
  ∃ i, i ≤ hay.length ∧ matchesAt hay needle i = true

instance (needle hay : List Char) : Decidable (occursIn needle hay) :=
  decidable_of_iff (((List.range (hay.length + 1)).any fun i => matchesAt hay needle i) = true)
    (by simp [occursIn, List.any_eq_true, List.mem_range, Nat.lt_succ_iff])

theorem findFrom_some_bounds {hay needle : List Char} {start p : Nat}
    (h : findFrom hay needle start = some p) :
    start ≤ p ∧ p ≤ hay.length ∧ matchesAt hay needle p = true := by
  have hmem := List.mem_of_find?_eq_some h
  have hp := List.find?_some h
  simp only [Bool.and_eq_true, decide_eq_true_eq] at hp
  simp only [List.mem_range, Nat.lt_succ_iff] at hmem
  exact ⟨hp.1, hmem, hp.2⟩

theorem findFrom_some_min {hay needle : List Char} {start p : Nat}
    (h : findFrom hay needle start = some p) :
    ∀ q, start ≤ q → q < p → matchesAt hay needle q = false := by
  intro q hsq hqp
  have hple := (findFrom_some_bounds h).2.1
  rw [findFrom, List.find?_eq_some_iff_getElem] at h
  obtain ⟨-, i, hi, hgi, hbefore⟩ := h
  have hpi : i = p := (List.getElem_range i hi).symm.trans hgi
  have := hbefore q (by omega)
  simp only [List.getElem_range, Bool.not_eq_true', Bool.and_eq_false_iff,
    decide_eq_false_iff_not] at this
  rcases this with h' | h'
  · omega
  · exact h'

theorem findFrom_eq_none_iff {hay needle : List Char} {start : Nat} :
    findFrom hay needle start = none ↔
      ∀ i, start ≤ i → i ≤ hay.length → matchesAt hay needle i = false := by
  rw [findFrom, List.find?_eq_none]
  constructor
  · intro h i hsi hile
    have := h i (by simp [List.mem_range, Nat.lt_succ_iff, hile])
    simp only [Bool.and_eq_true, decide_eq_true_eq, not_and] at this
    exact Bool.eq_false_iff.mpr fun hc => this hsi hc
  · intro h i hi
    simp only [List.mem_range, Nat.lt_succ_iff] at hi
    simp only [Bool.and_eq_true, decide_eq_true_eq, not_and]
    intro hsi hc
    exact absurd hc (by simp [h i hsi hi])

theorem findFrom_isSome_of_matches {hay needle : List Char} {start i : Nat}
    (hsi : start ≤ i) (hile : i ≤ hay.length) (hm : matchesAt hay needle i = true) :
    ∃ p, findFrom hay needle start = some p := by
  rcases h : findFrom hay needle start with _ | p
  · rw [findFrom_eq_none_iff] at h
    exact absurd hm (by simp [h i hsi hile])
  · exact ⟨p, rfl⟩

/-- One iteration of the positions scan of `validate_assessment`
(text_analysis.py lines 167-174), with an explicit bound on the remaining
iterations: `find` the needle from `start`; on failure stop, on success
record the position and resume from the found position plus one. -/
def scanPositionsAux (hay needle : List Char) : Nat → Nat → List Nat
  | 0, _ => []
  | fuel + 1, start =>
    match findFrom hay needle start with
    | none => []
    | some pos => pos :: scanPositionsAux hay needle fuel (pos + 1)

/-- The positions scan of `validate_assessment` (text_analysis.py lines
167-174): starting from `start = 0`, repeatedly `find` the context and
resume the search at the found position plus one, collecting every found
position in order.  The search cursor strictly increases and a found
position never exceeds `hay.length`, so the `while` loop iterates at most
`hay.length + 1 - start` times; `scanPositionsAux` carries that bound
explicitly, and `scanPositions_eq_nil` / `scanPositions_eq_cons` below
recover the loop's exact step behaviour. -/
def scanPositions (hay needle : List Char) (start : Nat) : List Nat :=
  scanPositionsAux hay needle (hay.length + 1 - start) start

theorem scanPositionsAux_congr {hay needle : List Char} :
    ∀ f g start, hay.length + 1 - start ≤ f → hay.length + 1 - start ≤ g →
      scanPositionsAux hay needle f start = scanPositionsAux hay needle g start := by
  intro f
  induction f with
  | zero =>
    intro g start hf hg
    rcases g with _ | g
    · rfl
    · rcases hfind : findFrom hay needle start with _ | pos
      · simp [scanPositionsAux, hfind]
      · have := findFrom_some_bounds hfind
        omega
  | succ f ih =>
    intro g start hf hg
    rcases g with _ | g
    · rcases hfind : findFrom hay needle start with _ | pos
      · simp [scanPositionsAux, hfind]
      · have := findFrom_some_bounds hfind
        omega
    · rcases hfind : findFrom hay needle start with _ | pos
      · simp [scanPositionsAux, hfind]
      · have hb := findFrom_some_bounds hfind
        simp only [scanPositionsAux, hfind]
        exact congrArg (pos :: ·) (ih g (pos + 1) (by omega) (by omega))

theorem scanPositions_eq_nil {hay needle : List Char} {start : Nat}
    (h : findFrom hay needle start = none) : scanPositions hay needle start = [] := by
  unfold scanPositions
  rcases hn : hay.length + 1 - start with _ | k
  · rfl
  · simp [scanPositionsAux, h]

theorem scanPositions_eq_cons {hay needle : List Char} {start pos : Nat}
    (h : findFrom hay needle start = some pos) :
    scanPositions hay needle start = pos :: scanPositions hay needle (pos + 1) := by
  have hb := findFrom_some_bounds h
  unfold scanPositions
  rcases hn : hay.length + 1 - start with _ | k
  · omega
  · simp only [scanPositionsAux, h]
    exact congrArg (pos :: ·) (scanPositionsAux_congr k (hay.length + 1 - (pos + 1)) (pos + 1)
      (by omega) (by omega))

/-- Model of `ErrorCategoryEnum` from models.py: closed enum of error categories. -/
inductive ErrorCategoryEnum where
  | spelling
  | grammar
  | style
deriving DecidableEq, Repr

/-- Model of `ErrorDetail` from models.py: one candidate (or validated) error as
reported by the AI model.  `position` is the claimed 0-based character
offset (the spec's `claimed_position`), rewritten to the verified offset
by reconciliation. -/
structure ErrorDetail where
  text_original : List Char
  text_corrected : List Char
  category : ErrorCategoryEnum
  description : List Char
  position : Nat
  context : List Char
deriving DecidableEq, Repr

/-- The per-anchor verification of validate_assessment (text_analysis.py
lines 184-190): `calculated_pos + len(e.text_original) <= len(text_orig)`
and `text_orig[calculated_pos : calculated_pos + len(e.text_original)] ==
e.text_original`. -/
def positionValid (text_orig text_original : List Char) (calculated_pos : Nat) : Bool :=
  decide (calculated_pos + text_original.length ≤ text_orig.length) &&
    matchesAt text_orig text_original calculated_pos

/-- The body of the per-candidate `try` block of `validate_assessment`
(text_analysis.py lines 162-195), which depends only on the candidate's
`context` and `text_original`.  Each `Except.error` is one of the
`ValueError`s the Python code can raise inside the block: the implicit one
from `e.context.index(e.text_original)` (message "substring not found")
and the two explicit `raise ValueError(...)` statements.  On success it
returns the computed `valid_position`. -/
def computeValidPosition (text_orig context text_original : List Char) : Except String Nat :=
  match findFrom context text_original 0 with
  | none => Except.error "substring not found"
  | some idx_error_in_context =>
    if (scanPositions text_orig context 0).isEmpty then
      Except.error "Context not found in original text"
    else
      match (scanPositions text_orig context 0).find?
          (fun context_pos => positionValid text_orig text_original
            (idx_error_in_context + context_pos)) with
      | none => Except.error "No valid position found for error"
      | some context_pos => Except.ok (idx_error_in_context + context_pos)

/-- One iteration of the `for e in assessment.errors` loop of
`validate_assessment`: on success the candidate is kept with its
`position` overwritten by the verified offset (line 200); each
`Except.error` is a raised `ValueError`, caught by the surrounding
`except ValueError` handler, which drops the candidate. -/
def validateErrorE (text_orig : List Char) (e : ErrorDetail) : Except String ErrorDetail :=
  match computeValidPosition text_orig e.context e.text_original with
  | Except.error msg => Except.error msg
  | Except.ok valid_position => Except.ok { e with position := valid_position }

/-- Model of `validate_assessment` (text_analysis.py lines 151-206), functionally:
the input error list is mapped to the list of validated errors; candidates
whose processing raises `ValueError` are silently dropped. -/
def validate_assessment (text_orig : List Char) (errors : List ErrorDetail) : List ErrorDetail :=
  errors.filterMap fun e => (validateErrorE text_orig e).toOption

/-! ### Upstream failure classifier

The `except` block of `identify_errors_in_text` (text_analysis.py lines
105-122): `error_str = str(e).lower()` followed by a fixed chain of
substring checks. -/

/-- Python's `needle in hay` for strings. -/
def containsSub (hay needle : List Char) : Bool :=
  (findFrom hay needle 0).isSome

/-- Case-insensitive classification of an API failure message into a
reason string (text_analysis.py lines 107-122).  `msg.map Char.toLower`
models `str(e).lower()`; all keywords are ASCII, where `Char.toLower`
agrees with Python `str.lower`. -/
def classify_api_error (msg : List Char) : List Char :=
  let error_str := msg.map Char.toLower
  if containsSub error_str "rate limit".data || containsSub error_str "quota".data then
    "rate_limit_exceeded".data
  else if containsSub error_str "timeout".data then
    "request_timeout".data
  else if containsSub error_str "authentication".data ||
      containsSub error_str "unauthorized".data then
    "authentication_failed".data
  else if containsSub error_str "network".data || containsSub error_str "connection".data then
    "network_error".data
  else if containsSub error_str "invalid".data && containsSub error_str "key".data then
    "invalid_api_key".data
  else if containsSub error_str "overloaded".data ||
      containsSub error_str "unavailable".data then
    "model_overloaded".data
  else
    "unknown_api_error".data

/-! ### Text sanitizer

`TextSanitizer.sanitize` (text_sanitizer.py lines 16-37). -/

/-- Membership in the regex class `[\x00-\x08\x0B\x0C\x0E-\x1F\x7F]`
(`CONTROL_CHARS`, text_sanitizer.py line 8). -/
def isControlChar (c : Char) : Bool :=
  c.val ≤ 0x08 || c.val == 0x0B || c.val == 0x0C ||
    (0x0E ≤ c.val && c.val ≤ 0x1F) || c.val == 0x7F

/-- Membership in the regex class U+200B through U+200D or U+FEFF
(`ZERO_WIDTH_CHARS`, text_sanitizer.py line 11). -/
def isZeroWidth (c : Char) : Bool :=
  (0x200B ≤ c.val && c.val ≤ 0x200D) || c.val == 0xFEFF

/-- Python's Unicode whitespace set: the characters matched by `\s` in a
`re` pattern over `str`, which is also the set stripped by `str.strip()`. -/
def pyIsSpace (c : Char) : Bool :=
  (0x09 ≤ c.val && c.val ≤ 0x0D) || (0x1C ≤ c.val && c.val ≤ 0x1F) ||
    c.val == 0x20 || c.val == 0x85 || c.val == 0xA0 || c.val == 0x1680 ||
    (0x2000 ≤ c.val && c.val ≤ 0x200A) || c.val == 0x2028 || c.val == 0x2029 ||
    c.val == 0x202F || c.val == 0x205F || c.val == 0x3000

/-- Model of `re.sub` with pattern \s+ and replacement " ": every maximal run of whitespace becomes a
single space.  The Boolean flag records whether the previous character was
part of a whitespace run already replaced. -/
def collapseWhitespace : Bool → List Char → List Char
  | _, [] => []
  | inRun, c :: rest =>
    if pyIsSpace c then
      if inRun then collapseWhitespace true rest
      else ' ' :: collapseWhitespace true rest
    else c :: collapseWhitespace false rest

/-- Python `str.strip()`: drop Unicode whitespace from both ends. -/
def stripChars (l : List Char) : List Char :=
  ((l.dropWhile pyIsSpace).reverse.dropWhile pyIsSpace).reverse

/-- The four sanitization steps of `TextSanitizer.sanitize`
(text_sanitizer.py lines 25-28): remove control characters, remove
zero-width characters, collapse whitespace runs, strip. -/
def sanitizeCore (text : List Char) : List Char :=
  stripChars (collapseWhitespace false
    (((text.filter fun c => !isControlChar c).filter fun c => !isZeroWidth c)))

/-- Model of `TextSanitizer.sanitize` (text_sanitizer.py lines 16-37).  The
optional bound models `max_length: int | None`; `Except.error` models the
raised `ValueError`s.  Python's `if not text` is `text = ""`; its
`len(text) < original_length * 0.5` is exactly `2 * len(text) <
original_length` (the float product is exact here); its truthiness test
`if max_length and ...` skips the bound check when `max_length` is `None`
or `0`. -/
def sanitize (text : List Char) (max_length : Option Nat) : Except String (List Char) :=
  if text.isEmpty then Except.ok text
  else
    let original_length := text.length
    let t := sanitizeCore text
    if original_length > 100 && 2 * t.length < original_length then
      Except.error "Text contains too many invalid characters"
    else
      match max_length with
      | none => Except.ok t
      | some m =>
        if m ≠ 0 && t.length > m then Except.error "Text exceeds maximum length"
        else Except.ok t

instance {ε α : Type} [DecidableEq ε] [DecidableEq α] : DecidableEq (Except ε α) := fun
  | Except.ok a, Except.ok b => decidable_of_iff (a = b) (by simp)
  | Except.error a, Except.error b => decidable_of_iff (a = b) (by simp)
  | Except.ok _, Except.error _ => isFalse (by simp)
  | Except.error _, Except.ok _ => isFalse (by simp)

/-! ### Characterization of the positions scan -/

theorem mem_scanPositions {hay needle : List Char} (start : Nat) :
    ∀ p, p ∈ scanPositions hay needle start ↔
      (start ≤ p ∧ p ≤ hay.length ∧ matchesAt hay needle p = true) := by
  suffices H : ∀ n s, hay.length + 1 - s ≤ n → ∀ p,
      p ∈ scanPositions hay needle s ↔
        (s ≤ p ∧ p ≤ hay.length ∧ matchesAt hay needle p = true) from
    H (hay.length + 1) start (by omega)
  intro n
  induction n with
  | zero =>
    intro s hs p
    rcases h : findFrom hay needle s with _ | pos
    · rw [scanPositions_eq_nil h]
      simp only [List.not_mem_nil, false_iff, not_and]
      intro h1 h2
      omega
    · have := findFrom_some_bounds h
      omega
  | succ n ih =>
    intro s hs p
    rcases h : findFrom hay needle s with _ | pos
    · rw [scanPositions_eq_nil h]
      rw [findFrom_eq_none_iff] at h
      simp only [List.not_mem_nil, false_iff, not_and]
      intro h1 h2 h3
      exact absurd h3 (by simp [h p h1 h2])
    · rw [scanPositions_eq_cons h]
      have hb := findFrom_some_bounds h
      have ih' := ih (pos + 1) (by omega)
      constructor
      · intro hp
        rcases List.mem_cons.mp hp with rfl | hp
        · exact ⟨hb.1, hb.2.1, hb.2.2⟩
        · have := (ih' p).mp hp
          exact ⟨by omega, this.2.1, this.2.2⟩
      · rintro ⟨h1, h2, h3⟩
        rcases Nat.lt_or_ge p (pos + 1) with hlt | hge
        · rcases Nat.lt_or_ge p pos with hlt' | hge'
          · exact absurd h3 (by simp [findFrom_some_min h p h1 hlt'])
          · have : p = pos := by omega
            simp [this]
        · exact List.mem_cons.mpr (Or.inr ((ih' p).mpr ⟨hge, h2, h3⟩))

theorem scanPositions_pairwise {hay needle : List Char} (start : Nat) :
    (scanPositions hay needle start).Pairwise (· < ·) := by
  suffices H : ∀ n s, hay.length + 1 - s ≤ n →
      (scanPositions hay needle s).Pairwise (· < ·) from
    H (hay.length + 1) start (by omega)
  intro n
  induction n with
  | zero =>
    intro s hs
    rcases h : findFrom hay needle s with _ | pos
    · rw [scanPositions_eq_nil h]
      exact List.Pairwise.nil
    · have := findFrom_some_bounds h
      omega
  | succ n ih =>
    intro s hs
    rcases h : findFrom hay needle s with _ | pos
    · rw [scanPositions_eq_nil h]
      exact List.Pairwise.nil
    · rw [scanPositions_eq_cons h]
      have hb := findFrom_some_bounds h
      refine List.Pairwise.cons ?_ (ih (pos + 1) (by omega))
      intro q hq
      have := (mem_scanPositions (pos + 1) q).mp hq
      omega

theorem scanPositions_eq_nil_iff {hay needle : List Char} :
    scanPositions hay needle 0 = [] ↔ ¬ occursIn needle hay := by
  constructor
  · intro h hocc
    obtain ⟨i, hile, hm⟩ := hocc
    have := (@mem_scanPositions hay needle 0 i).mpr
      ⟨Nat.zero_le i, hile, hm⟩
    simp [h] at this
  · intro hnocc
    rcases hscan : scanPositions hay needle 0 with _ | ⟨p, rest⟩
    · rfl
    · have hp := (@mem_scanPositions hay needle 0 p).mp
        (by simp [hscan])
      exact absurd ⟨p, hp.2.1, hp.2.2⟩ hnocc

/-- On a strictly sorted list, `find?` returns the smallest element
satisfying the predicate. -/
theorem find?_min_of_pairwise {l : List Nat} {p : Nat → Bool} {a : Nat}
    (hs : l.Pairwise (· < ·)) (h : l.find? p = some a) :
    ∀ b ∈ l, b < a → p b = false := by
  induction l with
  | nil => simp at h
  | cons x xs ih =>
    intro b hb hba
    rcases hpx : p x with _ | _
    · rw [List.find?_cons, hpx] at h
      rcases List.mem_cons.mp hb with rfl | hb'
      · exact hpx
      · exact ih (List.Pairwise.sublist (List.sublist_cons_self x xs) hs) h b hb' hba
    · rw [List.find?_cons, hpx] at h
      have hax : a = x := by
        simpa using h.symm
      rcases List.mem_cons.mp hb with rfl | hb'
      · omega
      · have := (List.pairwise_cons.mp hs).1 b hb'
        omega

/-! ### Inversion lemmas for the reconciler -/

theorem findFrom_zero_eq_none_iff {hay needle : List Char} :
    findFrom hay needle 0 = none ↔ ¬ occursIn needle hay := by
  rw [findFrom_eq_none_iff]
  constructor
  · rintro h ⟨i, hile, hm⟩
    exact absurd hm (by simp [h i (Nat.zero_le i) hile])
  · intro h i _ hile
    exact Bool.eq_false_iff.mpr fun hm => h ⟨i, hile, hm⟩

theorem containsSub_iff {hay needle : List Char} :
    containsSub hay needle = true ↔ occursIn needle hay := by
  unfold containsSub
  rcases h : findFrom hay needle 0 with _ | p
  · simp only [Option.isSome_none, Bool.false_eq_true, false_iff]
    exact findFrom_zero_eq_none_iff.mp h
  · have hb := findFrom_some_bounds h
    simp only [Option.isSome_some, true_iff]
    exact ⟨p, hb.2.1, hb.2.2⟩

theorem computeValidPosition_ok_iff {text ctx orig : List Char} {p : Nat} :
    computeValidPosition text ctx orig = Except.ok p ↔
      ∃ idx cp, findFrom ctx orig 0 = some idx ∧
        (scanPositions text ctx 0).find?
          (fun c => positionValid text orig (idx + c)) = some cp ∧
        p = idx + cp := by
  unfold computeValidPosition
  split
  next hf => simp [hf]
  next idx hf =>
    split
    next hemp =>
      simp [hf, List.isEmpty_iff.mp hemp]
    next hemp =>
      split
      next hfind => simp [hf, hfind]
      next cp hfind =>
        simp only [hf, Except.ok.injEq, Option.some.injEq]
        constructor
        · rintro rfl
          exact ⟨idx, cp, rfl, hfind, rfl⟩
        · rintro ⟨idx', cp', h1, h2, rfl⟩
          cases h1
          rw [hfind] at h2
          cases h2
          rfl

theorem validateErrorE_eq_map (text : List Char) (e : ErrorDetail) :
    validateErrorE text e = Except.map (fun p => { e with position := p })
      (computeValidPosition text e.context e.text_original) := by
  unfold validateErrorE
  rcases h : computeValidPosition text e.context e.text_original with msg | p <;> simp [h, Except.map]

theorem validateErrorE_ok_shape {text : List Char} {e e' : ErrorDetail}
    (h : validateErrorE text e = Except.ok e') :
    ∃ p, computeValidPosition text e.context e.text_original = Except.ok p ∧
      e' = { e with position := p } := by
  rw [validateErrorE_eq_map] at h
  rcases hc : computeValidPosition text e.context e.text_original with msg | p
  · rw [hc] at h
    exact absurd h (by simp [Except.map])
  · rw [hc] at h
    simp only [Except.map, Except.ok.injEq] at h
    exact ⟨p, rfl, h.symm⟩

theorem computeValidPosition_error_cases {text ctx orig : List Char} :
    (computeValidPosition text ctx orig = Except.error "substring not found" ↔
      findFrom ctx orig 0 = none)
    ∧ (computeValidPosition text ctx orig = Except.error "Context not found in original text" ↔
      ((∃ idx, findFrom ctx orig 0 = some idx) ∧ scanPositions text ctx 0 = []))
    ∧ (computeValidPosition text ctx orig = Except.error "No valid position found for error" ↔
      (∃ idx, findFrom ctx orig 0 = some idx ∧ scanPositions text ctx 0 ≠ [] ∧
        (scanPositions text ctx 0).find?
          (fun c => positionValid text orig (idx + c)) = none)) := by
  unfold computeValidPosition
  split
  next hf =>
    refine ⟨by simp [hf], ?_, ?_⟩
    · simp [hf]
    · simp [hf]
  next idx hf =>
    split
    next hemp =>
      refine ⟨by simp [hf], ?_, ?_⟩
      · simp [hf, List.isEmpty_iff.mp hemp]
      · simp [hf, List.isEmpty_iff.mp hemp]
    next hemp =>
      have hne : scanPositions text ctx 0 ≠ [] := fun hc => hemp (by simp [hc])
      split
      next hfind =>
        refine ⟨by simp [hf], by simp [hne], ?_⟩
        exact ⟨fun _ => ⟨idx, hf, hne, hfind⟩, fun _ => rfl⟩
      next cp hfind =>
        refine ⟨by simp [hf], by simp [hne], ?_⟩
        constructor
        · intro hc
          exact absurd hc (by simp)
        · rintro ⟨idx', hidx', -, hfind'⟩
          rw [hf] at hidx'
          cases hidx'
          rw [hfind] at hfind'
          exact absurd hfind' (by simp)

/-- Field-wise copy of a candidate with the position field reset; two
candidates with equal `clearPos` images agree on everything except their
claimed position. -/
def clearPos (e : ErrorDetail) : ErrorDetail := { e with position := 0 }

theorem clearPos_eq_iff {a b : ErrorDetail} :
    clearPos a = clearPos b ↔
      (a.text_original = b.text_original ∧ a.text_corrected = b.text_corrected ∧
        a.category = b.category ∧ a.description = b.description ∧ a.context = b.context) := by
  cases a
  cases b
  simp [clearPos, ErrorDetail.mk.injEq]

theorem validateErrorE_congr {a b : ErrorDetail} (text : List Char)
    (h : clearPos a = clearPos b) : validateErrorE text a = validateErrorE text b := by
  obtain ⟨h1, h2, h3, h4, h5⟩ := clearPos_eq_iff.mp h
  rw [validateErrorE_eq_map, validateErrorE_eq_map, h1, h5]
  rcases computeValidPosition text b.context b.text_original with msg | p
  · rfl
  · simp only [Except.map, Except.ok.injEq]
    cases a
    cases b
    simp_all

/-- A validated error is a fixpoint of per-candidate validation: running
the validation again on the rewritten error succeeds and changes nothing. -/
theorem validateErrorE_ok_self {text : List Char} {e e' : ErrorDetail}
    (h : validateErrorE text e = Except.ok e') :
    validateErrorE text e' = Except.ok e' := by
  obtain ⟨p, hc, rfl⟩ := validateErrorE_ok_shape h
  rw [validateErrorE_eq_map]
  have hctx : ({ e with position := p } : ErrorDetail).context = e.context := rfl
  have horig : ({ e with position := p } : ErrorDetail).text_original = e.text_original := rfl
  rw [hctx, horig, hc]
  rfl

theorem toOption_eq_some_iff {ε α : Type} {x : Except ε α} {a : α} :
    x.toOption = some a ↔ x = Except.ok a := by
  cases x <;> simp [Except.toOption]

/-- Everything the success of per-candidate validation guarantees: only
the position was rewritten, and the rewritten position carries an exact
in-bounds match of the original text. -/
theorem validateErrorE_ok_slice {text : List Char} {e e' : ErrorDetail}
    (h : validateErrorE text e = Except.ok e') :
    clearPos e' = clearPos e ∧
    e'.position + e'.text_original.length ≤ text.length ∧
    (text.drop e'.position).take e'.text_original.length = e'.text_original := by
  obtain ⟨p, hc, rfl⟩ := validateErrorE_ok_shape h
  obtain ⟨idx, cp, -, hfind, rfl⟩ := computeValidPosition_ok_iff.mp hc
  have hpv := List.find?_some hfind
  unfold positionValid at hpv
  rw [Bool.and_eq_true, decide_eq_true_eq] at hpv
  exact ⟨rfl, hpv.1, of_decide_eq_true hpv.2⟩

theorem mem_validate_assessment {text : List Char} {errors : List ErrorDetail}
    {e' : ErrorDetail} :
    e' ∈ validate_assessment text errors ↔
      ∃ e ∈ errors, validateErrorE text e = Except.ok e' := by
  unfold validate_assessment
  rw [List.mem_filterMap]
  constructor
  · rintro ⟨e, hmem, hopt⟩
    exact ⟨e, hmem, toOption_eq_some_iff.mp hopt⟩
  · rintro ⟨e, hmem, hok⟩
    exact ⟨e, hmem, toOption_eq_some_iff.mpr hok⟩

/-- C1: every ValidatedError `e` in the output of `validate_assessment`
satisfies `source_text[e.position : e.position + len(e.text_original)] ==
e.text_original` exactly, and a candidate whose original text matches at
no offset of the source text is dropped, never emitted with a guessed
position. -/
theorem c1_exact_match_invariant (text_orig : List Char) (errors : List ErrorDetail) :
    (∀ e' ∈ validate_assessment text_orig errors,
      (text_orig.drop e'.position).take e'.text_original.length = e'.text_original) ∧
    (∀ e ∈ errors,
      (∀ p : Nat, (text_orig.drop p).take e.text_original.length ≠ e.text_original) →
        (validateErrorE text_orig e).toOption = none) := by
  constructor
  · intro e' he'
    obtain ⟨e, -, hok⟩ := mem_validate_assessment.mp he'
    exact (validateErrorE_ok_slice hok).2.2
  · intro e _ hnone
    rcases hopt : (validateErrorE text_orig e).toOption with _ | e'
    · rfl
    · have hok := toOption_eq_some_iff.mp hopt
      obtain ⟨hclear, -, hslice⟩ := validateErrorE_ok_slice hok
      have horig : e'.text_original = e.text_original :=
        (clearPos_eq_iff.mp hclear).1
      rw [horig] at hslice
      exact absurd hslice (hnone e'.position)

/-- Scenario A data: candidate with a wildly wrong claimed position but a
correct context, used as the concrete instance for several claims. -/
def sampleCandidateA : ErrorDetail :=
  { text_original := "quick".data, text_corrected := "fast".data,
    category := ErrorCategoryEnum.spelling, description := [],
    position := 99, context := "The quick brown".data }

def sampleTextA : List Char := "The quick brown fox".data

/-- Witness for C1 at Scenario A: the survivor has position 4 and the
slice of the source there is exactly `"quick"`. -/
theorem c1_exact_match_invariant_witness :
    (sampleTextA.drop ({ sampleCandidateA with position := 4 } : ErrorDetail).position).take
        ({ sampleCandidateA with position := 4 } : ErrorDetail).text_original.length
      = ({ sampleCandidateA with position := 4 } : ErrorDetail).text_original :=
  (c1_exact_match_invariant sampleTextA [sampleCandidateA]).1
    { sampleCandidateA with position := 4 } (by decide)

/-- C4: the output of `validate_assessment` is a subsequence of the input
candidate list, each survivor changed only in its position field: after
forgetting positions the output is a sublist (stable filter) of the
input, and in particular the output is never longer than the input. -/
theorem c4_stable_subsequence (text_orig : List Char) (errors : List ErrorDetail) :
    List.Sublist ((validate_assessment text_orig errors).map clearPos)
        (errors.map clearPos) ∧
    (validate_assessment text_orig errors).length ≤ errors.length := by
  induction errors with
  | nil => exact ⟨List.Sublist.refl [], Nat.le_refl 0⟩
  | cons e rest ih =>
    rcases hopt : (validateErrorE text_orig e).toOption with _ | e'
    · have hstep : validate_assessment text_orig (e :: rest) =
          validate_assessment text_orig rest := by
        unfold validate_assessment
        rw [List.filterMap_cons, hopt]
      rw [hstep]
      simp only [List.map_cons, List.length_cons]
      exact ⟨List.Sublist.cons (clearPos e) ih.1, Nat.le_succ_of_le ih.2⟩
    · have hok := toOption_eq_some_iff.mp hopt
      have hclear := (validateErrorE_ok_slice hok).1
      have hstep : validate_assessment text_orig (e :: rest) =
          e' :: validate_assessment text_orig rest := by
        unfold validate_assessment
        rw [List.filterMap_cons, hopt]
      rw [hstep]
      simp only [List.map_cons, List.length_cons, hclear]
      exact ⟨List.Sublist.cons₂ (clearPos e) ih.1, Nat.succ_le_succ ih.2⟩

/-- C5: reconciliation is idempotent: re-running `validate_assessment` on
its own output (each validated error read back as a candidate whose
claimed position is its validated position) drops nothing and leaves
every position unchanged. -/
theorem c5_idempotent (text_orig : List Char) (errors : List ErrorDetail) :
    validate_assessment text_orig (validate_assessment text_orig errors) =
      validate_assessment text_orig errors := by
  have hfix : ∀ l : List ErrorDetail, (∀ x ∈ l, validateErrorE text_orig x = Except.ok x) →
      validate_assessment text_orig l = l := by
    intro l
    induction l with
    | nil => intro _; rfl
    | cons x rest ih =>
      intro hall
      unfold validate_assessment
      rw [List.filterMap_cons, toOption_eq_some_iff.mpr (hall x (List.mem_cons_self x rest))]
      have := ih fun y hy => hall y (List.mem_cons_of_mem x hy)
      unfold validate_assessment at this
      rw [this]
  refine hfix _ fun x hx => ?_
  obtain ⟨e, -, hok⟩ := mem_validate_assessment.mp hx
  exact validateErrorE_ok_self hok

/-- C6: the reconciler's output does not depend on claimed positions: two
candidate lists that agree except possibly in every candidate's position
field produce identical outputs (same survivors, same verified
positions). -/
theorem c6_claimed_position_irrelevant (text_orig : List Char)
    (l₁ l₂ : List ErrorDetail)
    (h : List.Forall₂ (fun a b => clearPos a = clearPos b) l₁ l₂) :
    validate_assessment text_orig l₁ = validate_assessment text_orig l₂ := by
  induction h with
  | nil => rfl
  | cons hab htail ih =>
    unfold validate_assessment
    rw [List.filterMap_cons, List.filterMap_cons, validateErrorE_congr text_orig hab]
    unfold validate_assessment at ih
    rcases (validateErrorE text_orig _).toOption with _ | e'
    · exact ih
    · rw [ih]

/-- Witness for C6: the Scenario A candidate with claimed position 99 and
the same candidate with claimed position 0 validate to identical
outputs. -/
theorem c6_claimed_position_irrelevant_witness :
    validate_assessment sampleTextA [sampleCandidateA] =
      validate_assessment sampleTextA [{ sampleCandidateA with position := 0 }] :=
  c6_claimed_position_irrelevant sampleTextA [sampleCandidateA]
    [{ sampleCandidateA with position := 0 }]
    (List.Forall₂.cons (by decide) List.Forall₂.nil)

/-- C2: the reconciler enumerates every occurrence of the context in the
source by a forward scan resuming at each found position plus one (the
scan contains exactly the matching offsets, in strictly ascending order),
and accepts the first (lowest) anchor whose verification check passes:
any smaller matching anchor fails the check, and the accepted anchor's
offset plus the local offset becomes the output position. -/
theorem c2_anchor_scan_first_accept (hay needle text_orig : List Char) (e e' : ErrorDetail) :
    (∀ p, p ∈ scanPositions hay needle 0 ↔
      (p ≤ hay.length ∧ matchesAt hay needle p = true)) ∧
    (scanPositions hay needle 0).Pairwise (· < ·) ∧
    (validateErrorE text_orig e = Except.ok e' →
      ∃ idx a, findFrom e.context e.text_original 0 = some idx ∧
        a ≤ text_orig.length ∧ matchesAt text_orig e.context a = true ∧
        positionValid text_orig e.text_original (idx + a) = true ∧
        (∀ b, b ≤ text_orig.length → matchesAt text_orig e.context b = true → b < a →
          positionValid text_orig e.text_original (idx + b) = false) ∧
        e'.position = idx + a) := by
  refine ⟨?_, scanPositions_pairwise 0, ?_⟩
  · intro p
    rw [mem_scanPositions 0 p]
    exact ⟨fun h => ⟨h.2.1, h.2.2⟩, fun h => ⟨Nat.zero_le p, h.1, h.2⟩⟩
  · intro hok
    obtain ⟨p, hc, rfl⟩ := validateErrorE_ok_shape hok
    obtain ⟨idx, cp, hidx, hfind, rfl⟩ := computeValidPosition_ok_iff.mp hc
    have hmem := (mem_scanPositions 0 cp).mp (List.mem_of_find?_eq_some hfind)
    have hpred0 := List.find?_some hfind
    have hpred : positionValid text_orig e.text_original (idx + cp) = true := hpred0
    refine ⟨idx, cp, hidx, hmem.2.1, hmem.2.2, hpred, ?_, rfl⟩
    intro b hble hbm hbcp
    exact find?_min_of_pairwise (scanPositions_pairwise 0) hfind b
      ((mem_scanPositions 0 b).mpr ⟨Nat.zero_le b, hble, hbm⟩) hbcp

/-- Witness for C2 at Scenario A: the accepted anchor is 0, the local
offset 4, and the output position 4. -/
theorem c2_anchor_scan_first_accept_witness :
    ∃ idx a, findFrom sampleCandidateA.context sampleCandidateA.text_original 0 = some idx ∧
      a ≤ sampleTextA.length ∧ matchesAt sampleTextA sampleCandidateA.context a = true ∧
      positionValid sampleTextA sampleCandidateA.text_original (idx + a) = true ∧
      (∀ b, b ≤ sampleTextA.length → matchesAt sampleTextA sampleCandidateA.context b = true →
        b < a → positionValid sampleTextA sampleCandidateA.text_original (idx + b) = false) ∧
      ({ sampleCandidateA with position := 4 } : ErrorDetail).position = idx + a :=
  (c2_anchor_scan_first_accept sampleTextA sampleCandidateA.context sampleTextA
    sampleCandidateA { sampleCandidateA with position := 4 }).2.2 (by decide)

theorem computeValidPosition_cases (text ctx orig : List Char) :
    (∃ p, computeValidPosition text ctx orig = Except.ok p) ∨
    computeValidPosition text ctx orig = Except.error "substring not found" ∨
    computeValidPosition text ctx orig = Except.error "Context not found in original text" ∨
    computeValidPosition text ctx orig = Except.error "No valid position found for error" := by
  unfold computeValidPosition
  split
  · exact Or.inr (Or.inl rfl)
  · split
    · exact Or.inr (Or.inr (Or.inl rfl))
    · split
      · exact Or.inr (Or.inr (Or.inr rfl))
      · exact Or.inl ⟨_, rfl⟩

theorem validateErrorE_error_iff {text : List Char} {e : ErrorDetail} {msg : String} :
    validateErrorE text e = Except.error msg ↔
      computeValidPosition text e.context e.text_original = Except.error msg := by
  rw [validateErrorE_eq_map]
  rcases computeValidPosition text e.context e.text_original with msg' | p <;>
    simp [Except.map]

theorem findFrom_zero_isSome_iff {hay needle : List Char} :
    (∃ p, findFrom hay needle 0 = some p) ↔ occursIn needle hay := by
  rcases h : findFrom hay needle 0 with _ | p
  · simp only [reduceCtorEq, exists_false, false_iff]
    exact findFrom_zero_eq_none_iff.mp h
  · have hb := findFrom_some_bounds h
    simp only [Option.some.injEq, exists_eq_left.mpr]
    exact ⟨fun _ => ⟨p, hb.2.1, hb.2.2⟩, fun _ => ⟨p, rfl⟩⟩

/-- C3: per-candidate validation can only end in success or in one of the
three `ValueError`s that the `except ValueError` handler catches, one per
drop reason (original text absent from its context, context absent from
the source, no anchor passing verification); dropped candidates are
silently filtered, and an input whose single candidate is dropped yields
the empty — valid — result. -/
theorem c3_never_raises (text_orig : List Char) (e : ErrorDetail) :
    ((∃ e', validateErrorE text_orig e = Except.ok e') ∨
      validateErrorE text_orig e = Except.error "substring not found" ∨
      validateErrorE text_orig e = Except.error "Context not found in original text" ∨
      validateErrorE text_orig e = Except.error "No valid position found for error") ∧
    (validateErrorE text_orig e = Except.error "substring not found" ↔
      ¬ occursIn e.text_original e.context) ∧
    (validateErrorE text_orig e = Except.error "Context not found in original text" ↔
      (occursIn e.text_original e.context ∧ ¬ occursIn e.context text_orig)) ∧
    (validateErrorE text_orig e = Except.error "No valid position found for error" ↔
      (occursIn e.text_original e.context ∧ occursIn e.context text_orig ∧
        ∀ idx a, findFrom e.context e.text_original 0 = some idx →
          a ≤ text_orig.length → matchesAt text_orig e.context a = true →
          positionValid text_orig e.text_original (idx + a) = false)) ∧
    ((validateErrorE text_orig e).toOption = none →
      validate_assessment text_orig [e] = []) := by
  obtain ⟨he1, he2, he3⟩ :=
    @computeValidPosition_error_cases text_orig e.context e.text_original
  refine ⟨?_, ?_, ?_, ?_, ?_⟩
  · rcases computeValidPosition_cases text_orig e.context e.text_original with
      ⟨p, hp⟩ | h | h | h
    · refine Or.inl ⟨{ e with position := p }, ?_⟩
      rw [validateErrorE_eq_map, hp]
      rfl
    · exact Or.inr (Or.inl (validateErrorE_error_iff.mpr h))
    · exact Or.inr (Or.inr (Or.inl (validateErrorE_error_iff.mpr h)))
    · exact Or.inr (Or.inr (Or.inr (validateErrorE_error_iff.mpr h)))
  · rw [validateErrorE_error_iff, he1, ← findFrom_zero_eq_none_iff]
  · rw [validateErrorE_error_iff, he2, findFrom_zero_isSome_iff, ← scanPositions_eq_nil_iff]
  · rw [validateErrorE_error_iff, he3]
    constructor
    · rintro ⟨idx, hidx, hne, hnone⟩
      refine ⟨findFrom_zero_isSome_iff.mp ⟨idx, hidx⟩, ?_, ?_⟩
      · by_contra hnocc
        exact hne (scanPositions_eq_nil_iff.mpr hnocc)
      · intro idx' a hidx' hale ham
        rw [hidx] at hidx'
        cases hidx'
        have := List.find?_eq_none.mp hnone a
          ((mem_scanPositions 0 a).mpr ⟨Nat.zero_le a, hale, ham⟩)
        exact Bool.not_eq_true _ ▸ Bool.eq_false_iff.mpr this
    · rintro ⟨hocc1, hocc2, hall⟩
      obtain ⟨idx, hidx⟩ := findFrom_zero_isSome_iff.mpr hocc1
      refine ⟨idx, hidx, fun hc => (scanPositions_eq_nil_iff.mp hc) hocc2, ?_⟩
      rw [List.find?_eq_none]
      intro a hmem
      have hm := (mem_scanPositions 0 a).mp hmem
      exact fun hc => absurd hc (by simp [hall idx a hidx hm.2.1 hm.2.2])
  · intro hnone
    unfold validate_assessment
    rw [List.filterMap_cons, hnone]
    rfl

/-- Scenario B data: the claimed context does not occur in the source
text at all. -/
def sampleCandidateB : ErrorDetail :=
  { text_original := "quick".data, text_corrected := "fast".data,
    category := ErrorCategoryEnum.grammar, description := [],
    position := 4, context := "quick zebra".data }

/-- Witness for C3 at Scenario B: the candidate whose context is absent
from the source is dropped with the context-not-found `ValueError`, and
the resulting assessment has zero validated errors. -/
theorem c3_never_raises_witness :
    validateErrorE sampleTextA sampleCandidateB =
        Except.error "Context not found in original text" ∧
      validate_assessment sampleTextA [sampleCandidateB] = [] :=
  ⟨(c3_never_raises sampleTextA sampleCandidateB).2.2.1.mpr (by decide),
    (c3_never_raises sampleTextA sampleCandidateB).2.2.2.2 (by decide)⟩

theorem findFrom_zero_self {hay needle : List Char} (h : matchesAt hay needle 0 = true) :
    findFrom hay needle 0 = some 0 := by
  rcases hf : findFrom hay needle 0 with _ | p
  · rw [findFrom_eq_none_iff] at hf
    exact absurd h (by simp [hf 0 (Nat.le_refl 0) (Nat.zero_le hay.length)])
  · rcases Nat.eq_zero_or_pos p with rfl | hpos
    · rfl
    · exact absurd h (by simp [findFrom_some_min hf 0 (Nat.le_refl 0) hpos])

/-- C10: a candidate whose `text_original` is the empty string survives
whenever its context occurs in the source: the empty string is found at
offset 0 of the context, the length-0 slice check passes at the first
anchor, and the emitted position is the first occurrence of the context
in the source text. -/
theorem c10_empty_original_survives (text_orig : List Char) (e : ErrorDetail)
    (h0 : e.text_original = []) (hocc : occursIn e.context text_orig) :
    ∃ p, p ≤ text_orig.length ∧ matchesAt text_orig e.context p = true ∧
      (∀ q, q < p → matchesAt text_orig e.context q = false) ∧
      validateErrorE text_orig e = Except.ok { e with position := p } ∧
      validate_assessment text_orig [e] = [{ e with position := p }] := by
  obtain ⟨p, hp⟩ := findFrom_zero_isSome_iff.mpr hocc
  have hb := findFrom_some_bounds hp
  have hidx : findFrom e.context e.text_original 0 = some 0 := by
    rw [h0]
    exact findFrom_zero_self (by simp [matchesAt])
  have hpred : positionValid text_orig e.text_original (0 + p) = true := by
    rw [h0]
    unfold positionValid
    simp [matchesAt, Nat.zero_add]
    omega
  have hok : validateErrorE text_orig e = Except.ok { e with position := p } := by
    rw [validateErrorE_eq_map]
    have hc : computeValidPosition text_orig e.context e.text_original =
        Except.ok (0 + p) := by
      rw [computeValidPosition_ok_iff]
      refine ⟨0, p, hidx, ?_, rfl⟩
      rw [scanPositions_eq_cons hp]
      exact List.find?_cons_of_pos _ hpred
    rw [hc]
    simp [Except.map, Nat.zero_add]
  refine ⟨p, hb.2.1, hb.2.2, ?_, hok, ?_⟩
  · intro q hq
    exact findFrom_some_min hp q (Nat.zero_le q) hq
  · unfold validate_assessment
    rw [List.filterMap_cons, toOption_eq_some_iff.mpr hok]
    rfl

/-- Candidate with an empty original text, as the AI could emit despite
the data model's non-empty precondition. -/
def sampleCandidateEmpty : ErrorDetail :=
  { text_original := [], text_corrected := "x".data,
    category := ErrorCategoryEnum.style, description := [],
    position := 7, context := "b".data }

/-- Witness for C10: on source `"ab"`, the empty-original candidate with
context `"b"` survives with position 1 (the first occurrence of the
context). -/
theorem c10_empty_original_survives_witness :
    ∃ p, p ≤ "ab".data.length ∧ matchesAt "ab".data sampleCandidateEmpty.context p = true ∧
      (∀ q, q < p → matchesAt "ab".data sampleCandidateEmpty.context q = false) ∧
      validateErrorE "ab".data sampleCandidateEmpty =
        Except.ok { sampleCandidateEmpty with position := p } ∧
      validate_assessment "ab".data [sampleCandidateEmpty] =
        [{ sampleCandidateEmpty with position := p }] :=
  c10_empty_original_survives "ab".data sampleCandidateEmpty rfl (by decide)

/-- C7: the failure classifier works by case-insensitive keyword matching
on the exception message: any message containing "rate limit" or "quota"
(after lowercasing) is classified `rate_limit_exceeded` regardless of the
other keywords (the checks run in a fixed order with this check first),
and a message containing none of the listed keywords is classified
`unknown_api_error`. -/
theorem c7_error_classification (msg : List Char) :
    ((occursIn "rate limit".data (msg.map Char.toLower) ∨
        occursIn "quota".data (msg.map Char.toLower)) →
      classify_api_error msg = "rate_limit_exceeded".data) ∧
    ((¬ occursIn "rate limit".data (msg.map Char.toLower) ∧
        ¬ occursIn "quota".data (msg.map Char.toLower) ∧
        ¬ occursIn "timeout".data (msg.map Char.toLower) ∧
        ¬ occursIn "authentication".data (msg.map Char.toLower) ∧
        ¬ occursIn "unauthorized".data (msg.map Char.toLower) ∧
        ¬ occursIn "network".data (msg.map Char.toLower) ∧
        ¬ occursIn "connection".data (msg.map Char.toLower) ∧
        ¬ (occursIn "invalid".data (msg.map Char.toLower) ∧
            occursIn "key".data (msg.map Char.toLower)) ∧
        ¬ occursIn "overloaded".data (msg.map Char.toLower) ∧
        ¬ occursIn "unavailable".data (msg.map Char.toLower)) →
      classify_api_error msg = "unknown_api_error".data) := by
  constructor
  · intro h
    have hcond : (containsSub (msg.map Char.toLower) "rate limit".data ||
        containsSub (msg.map Char.toLower) "quota".data) = true := by
      rcases h with h | h <;> simp [containsSub_iff.mpr h]
    simp [classify_api_error, hcond]
  · rintro ⟨h1, h2, h3, h4, h5, h6, h7, h8, h9, h10⟩
    have f : ∀ needle : List Char, ¬ occursIn needle (msg.map Char.toLower) →
        containsSub (msg.map Char.toLower) needle = false := fun needle hn =>
      Bool.eq_false_iff.mpr fun hc => hn (containsSub_iff.mp hc)
    have hik : (containsSub (msg.map Char.toLower) "invalid".data &&
        containsSub (msg.map Char.toLower) "key".data) = false := by
      rcases hinv : containsSub (msg.map Char.toLower) "invalid".data with _ | _
      · simp
      · simp only [Bool.true_and]
        exact Bool.eq_false_iff.mpr fun hc =>
          h8 ⟨containsSub_iff.mp hinv, containsSub_iff.mp hc⟩
    simp [classify_api_error, f _ h1, f _ h2, f _ h3, f _ h4, f _ h5, f _ h6, f _ h7,
      hik, f _ h9, f _ h10]

/-- Witness for C7: a message containing "QUOTA" classifies as
`rate_limit_exceeded`, and a keyword-free message classifies as
`unknown_api_error`. -/
theorem c7_error_classification_witness :
    classify_api_error "API QUOTA exceeded".data = "rate_limit_exceeded".data ∧
      classify_api_error "something broke".data = "unknown_api_error".data :=
  ⟨(c7_error_classification "API QUOTA exceeded".data).1 (by decide),
    (c7_error_classification "something broke".data).2 (by decide)⟩

/-- The Scenario D input: `"a\u200Bb\x07c   d"` — a zero-width space
after `a`, a BEL control character after `b`, three spaces before `d`. -/
def scenarioDInput : List Char :=
  ['a', Char.ofNat 0x200B, 'b', Char.ofNat 0x07, 'c', ' ', ' ', ' ', 'd']

/-- Counterexample for C8: on the Scenario D input the sanitizer returns
`"abc d"`, not `"ab c d"` — removing the BEL control character leaves no
space between `b` and `c`. -/
theorem c8_sanitize_scenario_d_counterexample :
    sanitize scenarioDInput none = Except.ok "abc d".data ∧
      sanitize scenarioDInput none ≠ Except.ok "ab c d".data := by
  constructor
  · decide
  · decide

/-- C8 (amended): the sanitizer maps `"a\u200Bb\x07c   d"` to `"abc d"`
by removing control characters (keeping tab, newline and carriage
return), removing zero-width characters, collapsing whitespace runs to a
single space, and trimming. -/
theorem c8_sanitize_scenario_d :
    sanitize scenarioDInput none = Except.ok "abc d".data := by
  decide

/-- The supplied-bound condition of `sanitize`'s second check: a bound is
present, Python-truthy (nonzero), and exceeded by the sanitized length. -/
def exceedsBound (len : Nat) : Option Nat → Prop
  | none => False
  | some m => m ≠ 0 ∧ m < len

instance (len : Nat) : ∀ o : Option Nat, Decidable (exceedsBound len o)
  | none => isFalse fun h => h
  | some _ => instDecidableAnd

theorem exceedsBound_iff {len : Nat} {o : Option Nat} :
    exceedsBound len o ↔ ∃ m, o = some m ∧ m ≠ 0 ∧ m < len := by
  rcases o with _ | m
  · simp [exceedsBound]
  · simp [exceedsBound]

/-- Propositional evaluation of `sanitize`, separating the three possible
outcomes. -/
theorem sanitize_eq (text : List Char) (max_length : Option Nat) :
    sanitize text max_length =
      if text = [] then Except.ok []
      else if 100 < text.length ∧ 2 * (sanitizeCore text).length < text.length then
        Except.error "Text contains too many invalid characters"
      else if exceedsBound (sanitizeCore text).length max_length then
        Except.error "Text exceeds maximum length"
      else Except.ok (sanitizeCore text) := by
  by_cases hemp : text = []
  · subst hemp
    simp [sanitize]
  · have hne : text.isEmpty = false := by
      simp [List.isEmpty_iff, hemp]
    rw [if_neg hemp]
    unfold sanitize
    rw [hne]
    simp only [Bool.false_eq_true, if_false]
    by_cases hg : 100 < text.length ∧ 2 * (sanitizeCore text).length < text.length
    · rw [if_pos hg]
      have hgt : (decide (text.length > 100) &&
          decide (2 * (sanitizeCore text).length < text.length)) = true := by
        simp [hg.1, hg.2]
      rw [hgt]
      rfl
    · rw [if_neg hg]
      have hgf : (decide (text.length > 100) &&
          decide (2 * (sanitizeCore text).length < text.length)) = false := by
        rcases Decidable.not_and_iff_or_not.mp hg with h | h <;> simp [h]
      rw [hgf]
      simp only [Bool.false_eq_true, if_false]
      rcases max_length with _ | m
      · dsimp only
        exact (if_neg fun h => h).symm
      · dsimp only
        by_cases hm : m ≠ 0 ∧ m < (sanitizeCore text).length
        · have hmt : (decide (m ≠ 0) && decide ((sanitizeCore text).length > m)) = true := by
            simp [hm.1, hm.2]
          rw [hmt, if_pos (show exceedsBound (sanitizeCore text).length (some m) from hm)]
          rfl
        · have hmf : (decide (m ≠ 0) && decide ((sanitizeCore text).length > m)) = false := by
            rcases Decidable.not_and_iff_or_not.mp hm with h | h <;> simp [h]
          rw [hmf, if_neg (show ¬ exceedsBound (sanitizeCore text).length (some m) from hm)]
          rfl

/-- Counterexample for C9: with a supplied maximum-length bound of 0 and
input `"a"`, the sanitized result (length 1) exceeds the bound, yet the
code returns it without error — Python's truthiness test `if max_length`
skips the check for a zero bound. -/
theorem c9_sanitize_counterexample :
    sanitize ['a'] (some 0) = Except.ok ['a'] ∧
      (sanitizeCore ['a']).length > 0 := by
  constructor
  · decide
  · decide

/-- C9 (amended): `sanitize` fails exactly when (a) the input is longer
than 100 characters and the sanitized result is shorter than 50% of the
original length, or (b) a nonzero maximum-length bound is supplied and
the sanitized result exceeds it; in every other case (the empty string
included, which passes through unchanged) it returns the sanitized string
without error. -/
theorem c9_sanitize_error_characterization (text : List Char) (max_length : Option Nat) :
    ((∃ msg, sanitize text max_length = Except.error msg) ↔
      ((100 < text.length ∧ 2 * (sanitizeCore text).length < text.length) ∨
        (∃ m, max_length = some m ∧ m ≠ 0 ∧ m < (sanitizeCore text).length))) ∧
    (sanitize text max_length = Except.ok (sanitizeCore text) ↔
      ¬ ((100 < text.length ∧ 2 * (sanitizeCore text).length < text.length) ∨
        (∃ m, max_length = some m ∧ m ≠ 0 ∧ m < (sanitizeCore text).length))) ∧
    sanitize [] max_length = Except.ok [] := by
  have hcoreNil : sanitizeCore ([] : List Char) = [] := rfl
  have hempty : sanitize [] max_length = Except.ok [] := by
    rw [sanitize_eq]
    rw [if_pos rfl]
  refine ⟨?_, ?_, hempty⟩
  · rw [sanitize_eq]
    split_ifs with h1 h2 h3
    · subst h1
      simp [hcoreNil]
    · simp [h2]
    · rw [exceedsBound_iff] at h3
      simp [h3]
    · rw [exceedsBound_iff] at h3
      simp [h2, h3]
  · rw [sanitize_eq]
    split_ifs with h1 h2 h3
    · subst h1
      simp [hcoreNil]
    · simp [h2]
    · rw [exceedsBound_iff] at h3
      simp [h3]
    · rw [exceedsBound_iff] at h3
      simp [h2, h3]

/-- Witness for C9 (amended): for input `"a"` with bound 0 neither
failure condition holds, and the sanitized string is returned. -/
theorem c9_sanitize_error_characterization_witness :
    sanitize ['a'] (some 0) = Except.ok (sanitizeCore ['a']) :=
  (c9_sanitize_error_characterization ['a'] (some 0)).2.1.mpr (by
    rintro (⟨h1, -⟩ | ⟨m, hm, hm0, -⟩)
    · exact absurd h1 (by decide)
    · cases hm
      exact hm0 rfl)

end TextAnalysis
